import Mathlib

/-!
Verification development for the binrw read-time runtime (kitlith/binrw).

The Rust sources are shallowly embedded: the seekable byte stream becomes an
explicit `Reader` state (byte list plus cursor), fallible reads return
`Except Error`, and each Rust function of interest becomes a Lean definition
translated from its source. Parts of the repository that live in the derive
macro or in modules not present under `src/` (the `Error` enum, the
derive-generated composite glue, the variant-resolution engine) are modelled
from the specification and marked as such in their doc comments.
-/

namespace BinrwSpec

/-- The seekable byte stream required by the runtime: a byte buffer plus a
cursor position.  Models `io::Cursor` over a byte slice; bytes are `Nat`s
kept below 256 by construction of the operations. -/
structure Reader where
  data : List Nat
  pos : Nat
deriving Repr, DecidableEq

/-- Modelled from the spec: the `Error` enum (`src/binrw/src/error.rs` is not
under `src/`).  One of: I/O failure, BadMagic (position, the mismatching
value actually read), EnumErrors (position, ordered list of variant attempt
records), NoVariantMatch (position only), Assertion/Custom (message,
position). -/
inductive Error where
  | ioError : Error
  | badMagic (pos : Nat) (found : Nat) : Error
  | enumErrors (pos : Nat) (variantErrors : List (String × Error)) : Error
  | noVariantMatch (pos : Nat) : Error
  | custom (pos : Nat) (msg : String) : Error

/-- `BinResult<T>` from `src/binrw/src/lib.rs`. -/
abbrev BinResult (α : Type) := Except Error α

/-- `Read::read_exact` on a cursor: yield the next `n` bytes and advance the
cursor, or fail with the stream's I/O error when fewer than `n` bytes
remain. -/
def readExact (r : Reader) (n : Nat) : BinResult (List Nat × Reader) :=
  if r.pos + n ≤ r.data.length then
    .ok ((r.data.drop r.pos).take n, { r with pos := r.pos + n })
  else
    .error .ioError

/-- The `Endian` enum from `src/binrw/src/endian.rs`. -/
inductive EndianT where
  | big
  | little
  | native
deriving Repr, DecidableEq

/-- `Default for Endian` (`src/binrw/src/endian.rs`): native order. -/
def EndianT.default : EndianT := .native

/-- Big-endian interpretation of a byte list, as `from_be_bytes` does for the
fixed-width integer types. -/
def fromBytesBE (bs : List Nat) : Nat :=
  bs.foldl (fun acc b => acc * 256 + b) 0

/-- Little-endian interpretation of a byte list (`from_le_bytes`). -/
def fromBytesLE (bs : List Nat) : Nat :=
  fromBytesBE bs.reverse

/-- The primitive codec from `binread_impl!` in `src/binrw/src/binread/impls.rs`:
read `sizeof(T)` bytes with `read_exact`, then interpret them per the byte
order taken from the options.  `Native` resolves to little-endian, matching
`cfg!(target_endian = "little")` on the build host. -/
def readPrim (w : Nat) (endian : EndianT) (r : Reader) : BinResult (Nat × Reader) :=
  match readExact r w with
  | .error e => .error e
  | .ok (bs, r') =>
    .ok (match endian with
      | .big => fromBytesBE bs
      | .little => fromBytesLE bs
      | .native => fromBytesLE bs, r')

/-- Modelled from the spec: the encode direction (`decode(encode(x, order),
order) == x`); the repository is read-only, so the byte serialization of a
`w`-byte word is the standard base-256 big-endian expansion
(`to_be_bytes`). -/
def toBytesBE : Nat → Nat → List Nat
  | 0, _ => []
  | w + 1, x => toBytesBE w (x / 256) ++ [x % 256]

/-- Modelled from the spec: little-endian encoding (`to_le_bytes`), the
byte-reverse of the big-endian encoding. -/
def toBytesLE (w x : Nat) : List Nat :=
  (toBytesBE w x).reverse

/-- Modelled from the spec: encode a `w`-byte word under a chosen byte order. -/
def encodeNum (w : Nat) (endian : EndianT) (x : Nat) : List Nat :=
  match endian with
  | .big => toBytesBE w x
  | .little => toBytesLE w x
  | .native => toBytesLE w x

theorem toBytesBE_length (w x : Nat) : (toBytesBE w x).length = w := by
  induction w generalizing x with
  | zero => rfl
  | succ n ih => simp [toBytesBE, ih]

theorem fromBytesBE_append_one (bs : List Nat) (b : Nat) :
    fromBytesBE (bs ++ [b]) = fromBytesBE bs * 256 + b := by
  simp [fromBytesBE, List.foldl_append]

theorem fromBytesBE_toBytesBE (w x : Nat) (hx : x < 256 ^ w) :
    fromBytesBE (toBytesBE w x) = x := by
  induction w generalizing x with
  | zero =>
    interval_cases x
    rfl
  | succ n ih =>
    have hdiv : x / 256 < 256 ^ n := by
      rw [Nat.div_lt_iff_lt_mul (by norm_num)]
      calc x < 256 ^ (n + 1) := hx
        _ = 256 ^ n * 256 := by ring
    calc fromBytesBE (toBytesBE (n + 1) x)
        = fromBytesBE (toBytesBE n (x / 256) ++ [x % 256]) := rfl
      _ = fromBytesBE (toBytesBE n (x / 256)) * 256 + x % 256 := fromBytesBE_append_one _ _
      _ = x / 256 * 256 + x % 256 := by rw [ih _ hdiv]
      _ = x := by omega

theorem fromBytesLE_toBytesLE (w x : Nat) (hx : x < 256 ^ w) :
    fromBytesLE (toBytesLE w x) = x := by
  unfold fromBytesLE toBytesLE
  rw [List.reverse_reverse]
  exact fromBytesBE_toBytesBE w x hx

/-- C4: for every fixed width and both explicit byte orders, decoding (the
primitive codec of `binread_impl!`) the bytes produced by encoding a value
`x` under that byte order returns exactly `x`, consuming exactly the
encoded bytes. -/
theorem primitive_codec_round_trip (w x : Nat) (hx : x < 256 ^ w) (endian : EndianT)
    (he : endian = .big ∨ endian = .little) :
    readPrim w endian { data := encodeNum w endian x, pos := 0 } =
      .ok (x, { data := encodeNum w endian x, pos := w }) := by
  have hlenBE : (toBytesBE w x).length = w := toBytesBE_length w x
  have hlenLE : (toBytesLE w x).length = w := by
    simp [toBytesLE, hlenBE]
  rcases he with he | he <;> subst he
  · have hcond : (0 : Nat) + w ≤ (toBytesBE w x).length := by omega
    simp only [readPrim, readExact, encodeNum, hcond, if_pos, List.drop_zero]
    rw [List.take_of_length_le (by omega)]
    simp [fromBytesBE_toBytesBE w x hx]
  · have hcond : (0 : Nat) + w ≤ (toBytesLE w x).length := by omega
    simp only [readPrim, readExact, encodeNum, hcond, if_pos, List.drop_zero]
    rw [List.take_of_length_le (by omega)]
    simp [fromBytesLE_toBytesLE w x hx]

/-- Witness for C4: the 16-bit value 0x0501 round-trips under big-endian. -/
theorem primitive_codec_round_trip_witness :
    readPrim 2 .big { data := encodeNum 2 .big 1281, pos := 0 } =
      .ok (1281, { data := encodeNum 2 .big 1281, pos := 2 }) :=
  primitive_codec_round_trip 2 1281 (by norm_num) .big (Or.inl rfl)

/-- A model of `std::any::TypeId` restricted to the keys the context
dispatches on: the three built-in key types of
`src/binrw/src/binread/options.rs` (`Endian`, `VecCount`, `FileOffset`) and
an open family of extension key types. -/
inductive TypeIdK where
  | endianId
  | vecCountId
  | fileOffsetId
  | extId (tag : Nat)
deriving Repr, DecidableEq

/-- A typed value held by the context, tagged with the key type it was
inserted under (in Rust the value's own type is the key, via
`TypeId::of::<T>()`).  `V` is the payload type of extension entries
(`Box<dyn Any>`). -/
inductive OptValue (V : Type) where
  | endianV (e : EndianT)
  | vecCountV (n : Nat)
  | fileOffsetV (off : Nat)
  | extV (tag : Nat) (v : V)

/-- The `TypeId` of the type an `OptValue` was inserted under. -/
def OptValue.typeId {V : Type} : OptValue V → TypeIdK
  | .endianV _ => .endianId
  | .vecCountV _ => .vecCountId
  | .fileOffsetV _ => .fileOffsetId
  | .extV tag _ => .extId tag

/-- Association-list model of the `rpds::HashTrieMap` insert: replace an
existing binding for the key or append a fresh one. -/
def assocInsert {V : Type} (k : Nat) (v : V) : List (Nat × V) → List (Nat × V)
  | [] => [(k, v)]
  | (k', v') :: rest =>
    if k' = k then (k, v) :: rest else (k', v') :: assocInsert k v rest

/-- Association-list model of the `rpds::HashTrieMap` lookup. -/
def assocGet {V : Type} (k : Nat) : List (Nat × V) → Option V
  | [] => none
  | (k', v') :: rest => if k' = k then some v' else assocGet k rest

/-- The `ReadOptions` struct of `src/binrw/src/binread/options.rs`: the
built-in fields `endian`, `count`, `offset`, plus the open extension map
`ext : HashTrieMap<TypeId, Box<dyn Any>>`. -/
structure ReadOptionsS (V : Type) where
  endian : EndianT
  count : Option Nat
  offset : Nat
  ext : List (Nat × V)

/-- `ReadOptions::get` (`src/binrw/src/binread/options.rs` lines 31-51):
dispatch on the key's `TypeId`; `Endian` reads the `endian` field,
`VecCount` the `count` field (absent when `None`), `FileOffset` the
`offset` field (always present), anything else falls through to the
extension map. -/
def ReadOptionsS.get {V : Type} (c : ReadOptionsS V) : TypeIdK → Option (OptValue V)
  | .endianId => some (.endianV c.endian)
  | .vecCountId => c.count.map .vecCountV
  | .fileOffsetId => some (.fileOffsetV c.offset)
  | .extId tag => (assocGet tag c.ext).map (.extV tag)

/-- `ReadOptions::insert_mut` (lines 53-64): dispatch on the inserted
value's `TypeId` and update the matching field, or the extension map. -/
def ReadOptionsS.insert_mut {V : Type} (c : ReadOptionsS V) : OptValue V → ReadOptionsS V
  | .endianV e => { c with endian := e }
  | .vecCountV n => { c with count := some n }
  | .fileOffsetV off => { c with offset := off }
  | .extV tag v => { c with ext := assocInsert tag v c.ext }

/-- `ReadOptions::insert` (lines 66-73): clone `self`, apply `insert_mut` to
the clone, return the clone; `self` is only read. -/
def ReadOptionsS.insert {V : Type} (c : ReadOptionsS V) (v : OptValue V) : ReadOptionsS V :=
  ReadOptionsS.insert_mut c v

/-- `ReadOptions::contains` (lines 100-113): `Endian` is always reported
present, `VecCount` iff `count.is_some()`, `FileOffset` iff the stored
offset is nonzero, extension keys by map membership. -/
def ReadOptionsS.contains {V : Type} (c : ReadOptionsS V) : TypeIdK → Bool
  | .endianId => true
  | .vecCountId => c.count.isSome
  | .fileOffsetId => c.offset != 0
  | .extId tag => (assocGet tag c.ext).isSome

theorem assocGet_insert_self {V : Type} (k : Nat) (v : V) (l : List (Nat × V)) :
    assocGet k (assocInsert k v l) = some v := by
  induction l with
  | nil => simp [assocInsert, assocGet]
  | cons hd tl ih =>
    obtain ⟨k', v'⟩ := hd
    by_cases h : k' = k
    · simp [assocInsert, assocGet, h]
    · simp [assocInsert, assocGet, h, ih]

theorem assocGet_insert_ne {V : Type} (k m : Nat) (v : V) (l : List (Nat × V))
    (hne : m ≠ k) : assocGet m (assocInsert k v l) = assocGet m l := by
  have hkm : ¬(k = m) := fun h => hne h.symm
  induction l with
  | nil => simp [assocInsert, assocGet, hkm]
  | cons hd tl ih =>
    obtain ⟨k', v'⟩ := hd
    by_cases h : k' = k
    · subst h
      simp [assocInsert, assocGet, hkm]
    · simp [assocInsert, assocGet, h, ih]

/-- C5: the context overlay is non-mutating and key-local.  `insert`
operates on a clone of the parent (the parent, a pure value here, is never
changed); in the overlay the inserted key looks up to exactly the inserted
value, and every other key looks up to the same result as in the parent. -/
theorem context_overlay_non_mutating {V : Type} (c : ReadOptionsS V) (v : OptValue V) :
    (c.insert v).get v.typeId = some v ∧
      ∀ k, k ≠ v.typeId → (c.insert v).get k = c.get k := by
  constructor
  · cases v with
    | endianV e => rfl
    | vecCountV n => rfl
    | fileOffsetV off => rfl
    | extV tag x =>
      simp [ReadOptionsS.insert, ReadOptionsS.insert_mut, ReadOptionsS.get,
        OptValue.typeId, assocGet_insert_self]
  · intro k hk
    cases v with
    | endianV e =>
      cases k with
      | endianId => exact absurd rfl hk
      | vecCountId => rfl
      | fileOffsetId => rfl
      | extId tag => rfl
    | vecCountV n =>
      cases k with
      | endianId => rfl
      | vecCountId => exact absurd rfl hk
      | fileOffsetId => rfl
      | extId tag => rfl
    | fileOffsetV off =>
      cases k with
      | endianId => rfl
      | vecCountId => rfl
      | fileOffsetId => exact absurd rfl hk
      | extId tag => rfl
    | extV tag x =>
      cases k with
      | endianId => rfl
      | vecCountId => rfl
      | fileOffsetId => rfl
      | extId tag' =>
        have htag : tag' ≠ tag := by
          intro h
          exact hk (by simp [OptValue.typeId, h])
        simp [ReadOptionsS.insert, ReadOptionsS.insert_mut, ReadOptionsS.get,
          assocGet_insert_ne tag tag' x c.ext htag]

/-- Witness for C5: a concrete overlay inserting a byte order over a
concrete parent context. -/
theorem context_overlay_non_mutating_witness :
    (ReadOptionsS.insert ⟨.native, none, 0, ([] : List (Nat × Nat))⟩ (.endianV .little)).get
        (OptValue.endianV (V := Nat) .little).typeId = some (.endianV .little) ∧
      (ReadOptionsS.insert ⟨.native, none, 0, ([] : List (Nat × Nat))⟩
          (.endianV .little)).get .fileOffsetId =
        (⟨.native, none, 0, ([] : List (Nat × Nat))⟩ : ReadOptionsS Nat).get .fileOffsetId :=
  ⟨(context_overlay_non_mutating _ _).1,
    (context_overlay_non_mutating _ (.endianV .little)).2 .fileOffsetId (by intro h; cases h)⟩

/-- C10: the presence check is asymmetric across built-in keys — the byte
order is always reported present; the base offset is reported present
exactly when it is nonzero, even though its lookup always succeeds; in
particular an offset explicitly overlaid to zero is reported absent while
lookups still return 0. -/
theorem contains_builtin_asymmetry {V : Type} (c : ReadOptionsS V) :
    c.contains .endianId = true ∧
      c.contains .fileOffsetId = (c.offset != 0) ∧
      c.get .fileOffsetId = some (.fileOffsetV c.offset) ∧
      (c.insert (.fileOffsetV 0)).contains .fileOffsetId = false ∧
      (c.insert (.fileOffsetV 0)).get .fileOffsetId = some (.fileOffsetV 0) :=
  ⟨rfl, rfl, rfl, rfl, rfl⟩

/-- `Punctuated::separated` from `src/binrw/src/helpers/punctuated.rs`
(lines 58-79), generic over the element and separator readers standing for
`T::read_options` and `P::read_options`: the loop pushes an element each
iteration and a separator after every element except the last, propagating
the first failure. -/
def Punctuated.separated {σ α β ε : Type} (readElem : σ → Except ε (α × σ))
    (readSep : σ → Except ε (β × σ)) : Nat → σ → Except ε ((List α × List β) × σ)
  | 0, s => .ok (([], []), s)
  | 1, s =>
    match readElem s with
    | .error e => .error e
    | .ok (a, s₁) => .ok (([a], []), s₁)
  | n + 2, s =>
    match readElem s with
    | .error e => .error e
    | .ok (a, s₁) =>
      match readSep s₁ with
      | .error e => .error e
      | .ok (p, s₂) =>
        match Punctuated.separated readElem readSep (n + 1) s₂ with
        | .error e => .error e
        | .ok ((as, ps), s₃) => .ok ((a :: as, p :: ps), s₃)

/-- `Punctuated::separated_trailing` (lines 84-103): the loop pushes an
element/separator pair each iteration, propagating the first failure. -/
def Punctuated.separated_trailing {σ α β ε : Type} (readElem : σ → Except ε (α × σ))
    (readSep : σ → Except ε (β × σ)) : Nat → σ → Except ε ((List α × List β) × σ)
  | 0, s => .ok (([], []), s)
  | n + 1, s =>
    match readElem s with
    | .error e => .error e
    | .ok (a, s₁) =>
      match readSep s₁ with
      | .error e => .error e
      | .ok (p, s₂) =>
        match Punctuated.separated_trailing readElem readSep n s₂ with
        | .error e => .error e
        | .ok ((as, ps), s₃) => .ok ((a :: as, p :: ps), s₃)

theorem separated_ok_lengths {σ α β ε : Type} (readElem : σ → Except ε (α × σ))
    (readSep : σ → Except ε (β × σ)) (n : Nat) :
    ∀ (s s' : σ) (as : List α) (ps : List β),
      Punctuated.separated readElem readSep n s = .ok ((as, ps), s') →
      as.length = n ∧ ps.length = n - 1 := by
  induction n with
  | zero =>
    intro s s' as ps h
    simp only [Punctuated.separated] at h
    cases h
    exact ⟨rfl, rfl⟩
  | succ m ih =>
    intro s s' as ps h
    cases m with
    | zero =>
      cases helem : readElem s with
      | error e => simp [Punctuated.separated, helem] at h
      | ok v =>
        obtain ⟨a, s₁⟩ := v
        simp only [Punctuated.separated, helem] at h
        cases h
        exact ⟨rfl, rfl⟩
    | succ k =>
      cases helem : readElem s with
      | error e => simp [Punctuated.separated, helem] at h
      | ok v =>
        obtain ⟨a, s₁⟩ := v
        cases hsep : readSep s₁ with
        | error e => simp [Punctuated.separated, helem, hsep] at h
        | ok w =>
          obtain ⟨p, s₂⟩ := w
          cases hrec : Punctuated.separated readElem readSep (k + 1) s₂ with
          | error e => simp [Punctuated.separated, helem, hsep, hrec] at h
          | ok u =>
            obtain ⟨⟨as', ps'⟩, s₃⟩ := u
            simp only [Punctuated.separated, helem, hsep, hrec] at h
            cases h
            obtain ⟨hlen, hplen⟩ := ih _ _ _ _ hrec
            constructor
            · simp [hlen]
            · simp [hplen]

theorem separated_trailing_ok_lengths {σ α β ε : Type} (readElem : σ → Except ε (α × σ))
    (readSep : σ → Except ε (β × σ)) (n : Nat) :
    ∀ (s s' : σ) (as : List α) (ps : List β),
      Punctuated.separated_trailing readElem readSep n s = .ok ((as, ps), s') →
      as.length = n ∧ ps.length = n := by
  induction n with
  | zero =>
    intro s s' as ps h
    simp only [Punctuated.separated_trailing] at h
    cases h
    exact ⟨rfl, rfl⟩
  | succ m ih =>
    intro s s' as ps h
    cases helem : readElem s with
    | error e => simp [Punctuated.separated_trailing, helem] at h
    | ok v =>
      obtain ⟨a, s₁⟩ := v
      cases hsep : readSep s₁ with
      | error e => simp [Punctuated.separated_trailing, helem, hsep] at h
      | ok w =>
        obtain ⟨p, s₂⟩ := w
        cases hrec : Punctuated.separated_trailing readElem readSep m s₂ with
        | error e => simp [Punctuated.separated_trailing, helem, hsep, hrec] at h
        | ok u =>
          obtain ⟨⟨as', ps'⟩, s₃⟩ := u
          simp only [Punctuated.separated_trailing, helem, hsep, hrec] at h
          cases h
          obtain ⟨hlen, hplen⟩ := ih _ _ _ _ hrec
          exact ⟨by simp [hlen], by simp [hplen]⟩

/-- C6: for every count `n`, `separated` decodes exactly `n` elements and
`n - 1` separators and `separated_trailing` exactly `n` of each; both
propagate the first element failure and the first separator failure
immediately instead of returning a short result. -/
theorem punctuated_policies (σ α β ε : Type) (readElem : σ → Except ε (α × σ))
    (readSep : σ → Except ε (β × σ)) (n : Nat) (s : σ) :
    (∀ (s' : σ) (as : List α) (ps : List β),
        Punctuated.separated readElem readSep n s = .ok ((as, ps), s') →
        as.length = n ∧ ps.length = n - 1) ∧
      (∀ (s' : σ) (as : List α) (ps : List β),
        Punctuated.separated_trailing readElem readSep n s = .ok ((as, ps), s') →
        as.length = n ∧ ps.length = n) ∧
      (∀ e, readElem s = .error e → 0 < n →
        Punctuated.separated readElem readSep n s = .error e ∧
          Punctuated.separated_trailing readElem readSep n s = .error e) ∧
      (∀ a s₁ e, readElem s = .ok (a, s₁) → readSep s₁ = .error e →
        (2 ≤ n → Punctuated.separated readElem readSep n s = .error e) ∧
          (1 ≤ n → Punctuated.separated_trailing readElem readSep n s = .error e)) := by
  refine ⟨fun s' as ps h => separated_ok_lengths readElem readSep n s s' as ps h,
    fun s' as ps h => separated_trailing_ok_lengths readElem readSep n s s' as ps h,
    ?_, ?_⟩
  · intro e helem hn
    match n, hn with
    | 1, _ =>
      exact ⟨by simp [Punctuated.separated, helem],
        by simp [Punctuated.separated_trailing, helem]⟩
    | Nat.succ (Nat.succ k), _ =>
      exact ⟨by simp [Punctuated.separated, helem],
        by simp [Punctuated.separated_trailing, helem]⟩
  · intro a s₁ e helem hsep
    constructor
    · intro hn
      match n, hn with
      | Nat.succ (Nat.succ k), _ =>
        simp [Punctuated.separated, helem, hsep]
    · intro hn
      match n, hn with
      | Nat.succ k, _ =>
        simp [Punctuated.separated_trailing, helem, hsep]

/-- Witness for C6: decoding the documented example bytes
`00 03 00 00 02 01 00 01` as three big-endian 16-bit elements separated by
single-byte separators yields exactly 3 elements and 2 separators. -/
theorem punctuated_policies_witness :
    ([3, 2, 1] : List Nat).length = 3 ∧ ([0, 1] : List Nat).length = 3 - 1 :=
  (punctuated_policies Reader Nat Nat Error (readPrim 2 .big) (readPrim 1 .big) 3
      { data := [0, 3, 0, 0, 2, 1, 0, 1], pos := 0 }).1
    { data := [0, 3, 0, 0, 2, 1, 0, 1], pos := 8 } [3, 2, 1] [0, 1] rfl

/-- `Counted::read_options` from `src/binrw/src/helpers/counted.rs`
(lines 39-72): `(0..count).map(|_| B::read_options(..)).collect()` decodes
the elements sequentially and stops at the first failure. -/
def Counted.read_options {σ α ε : Type} (readElem : σ → Except ε (α × σ)) :
    Nat → σ → Except ε (List α × σ)
  | 0, s => .ok ([], s)
  | n + 1, s =>
    match readElem s with
    | .error e => .error e
    | .ok (a, s₁) =>
      match Counted.read_options readElem n s₁ with
      | .error e => .error e
      | .ok (as, s₂) => .ok (a :: as, s₂)

theorem counted_ok_length {σ α ε : Type} (readElem : σ → Except ε (α × σ)) (n : Nat) :
    ∀ (s s' : σ) (as : List α),
      Counted.read_options readElem n s = .ok (as, s') → as.length = n := by
  induction n with
  | zero =>
    intro s s' as h
    simp only [Counted.read_options] at h
    cases h
    rfl
  | succ m ih =>
    intro s s' as h
    cases helem : readElem s with
    | error e => simp [Counted.read_options, helem] at h
    | ok v =>
      obtain ⟨a, s₁⟩ := v
      cases hrec : Counted.read_options readElem m s₁ with
      | error e => simp [Counted.read_options, helem, hrec] at h
      | ok u =>
        obtain ⟨as', s₂⟩ := u
        simp only [Counted.read_options, helem, hrec] at h
        cases h
        simp [ih _ _ _ hrec]

/-- C7: the counted reader decodes exactly `n` elements with no separators;
an element failure is propagated unchanged as the whole result (no
aggregation, no partial result): the first element's failure is returned
as-is, and a later step wraps the recursive result with `Except.map`, which
leaves any error untouched. -/
theorem counted_exact_and_first_failure (σ α ε : Type) (readElem : σ → Except ε (α × σ))
    (n : Nat) (s : σ) :
    (∀ (s' : σ) (as : List α),
        Counted.read_options readElem n s = .ok (as, s') → as.length = n) ∧
      (∀ e, readElem s = .error e → 0 < n →
        Counted.read_options readElem n s = .error e) ∧
      (∀ a s₁, readElem s = .ok (a, s₁) →
        Counted.read_options readElem (n + 1) s =
          (Counted.read_options readElem n s₁).map fun r => (a :: r.1, r.2)) := by
  refine ⟨fun s' as h => counted_ok_length readElem n s s' as h, ?_, ?_⟩
  · intro e helem hn
    match n, hn with
    | Nat.succ k, _ => simp [Counted.read_options, helem]
  · intro a s₁ helem
    cases hrec : Counted.read_options readElem n s₁ with
    | error e => simp [Counted.read_options, helem, hrec, Except.map]
    | ok u => simp [Counted.read_options, helem, hrec, Except.map]

/-- Witness for C7: decoding `00 03 00 02 00 01` as three big-endian 16-bit
elements yields exactly 3 elements. -/
theorem counted_exact_and_first_failure_witness : ([3, 2, 1] : List Nat).length = 3 :=
  (counted_exact_and_first_failure Reader Nat Error (readPrim 2 .big) 3
      { data := [0, 3, 0, 2, 0, 1], pos := 0 }).1
    { data := [0, 3, 0, 2, 0, 1], pos := 6 } [3, 2, 1] rfl

/-- Modelled from the spec: one candidate shape of the variant-resolution
engine (the engine itself is emitted by the derive macro, which is not under
`src/`; only its tests in `src/binread/tests/derive_enum.rs` are).  A
candidate is a named shape with its full `read` attempt. -/
structure Candidate (α : Type) where
  name : String
  read : Reader → BinResult (α × Reader)

/-- Modelled from the spec: the enum error-reporting policy —
`return_all_errors` (Collect-all, the default) versus
`return_unexpected_error` (Reduced-detail). -/
inductive ErrorPolicy where
  | collectAll
  | reducedDetail

/-- Modelled from the spec: the candidate probing loop of §4.6 — each
candidate is attempted in declaration order from the saved stream position
`s`; a failure is recorded as a (name, error) pair and the stream restored
(re-attempting from `s`); success commits.  When all candidates fail the
accumulated records (in attempt order) feed the active policy's final
error. -/
def tryVariants {α : Type} (policy : ErrorPolicy) (s : Reader) :
    List (Candidate α) → List (String × Error) → BinResult (α × Reader)
  | [], acc =>
    match policy with
    | .collectAll => .error (.enumErrors s.pos acc.reverse)
    | .reducedDetail => .error (.noVariantMatch s.pos)
  | c :: rest, acc =>
    match c.read s with
    | .ok (a, s') => .ok (a, s')
    | .error e => tryVariants policy s rest ((c.name, e) :: acc)

/-- Modelled from the spec: a full enum resolution — save the current
position, probe the candidates in order under the active policy. -/
def resolveVariants {α : Type} (policy : ErrorPolicy) (cands : List (Candidate α))
    (s : Reader) : BinResult (α × Reader) :=
  tryVariants policy s cands []

theorem tryVariants_all_fail {α : Type} (s : Reader) (errFn : Candidate α → Error) :
    ∀ (cands : List (Candidate α)) (acc : List (String × Error)),
      (∀ c ∈ cands, c.read s = .error (errFn c)) →
      tryVariants .collectAll s cands acc =
          .error (.enumErrors s.pos (acc.reverse ++ cands.map fun c => (c.name, errFn c))) ∧
        tryVariants .reducedDetail s cands acc = .error (.noVariantMatch s.pos) := by
  intro cands
  induction cands with
  | nil =>
    intro acc _
    simp [tryVariants]
  | cons c rest ih =>
    intro acc hfail
    have hc : c.read s = .error (errFn c) := hfail c (List.mem_cons_self c rest)
    have hrest : ∀ c' ∈ rest, c'.read s = .error (errFn c') :=
      fun c' hc' => hfail c' (List.mem_cons_of_mem c hc')
    obtain ⟨h1, h2⟩ := ih ((c.name, errFn c) :: acc) hrest
    constructor
    · rw [show tryVariants ErrorPolicy.collectAll s (c :: rest) acc =
        tryVariants ErrorPolicy.collectAll s rest ((c.name, errFn c) :: acc) by
          simp [tryVariants, hc]]
      rw [h1]
      simp
    · rw [show tryVariants ErrorPolicy.reducedDetail s (c :: rest) acc =
        tryVariants ErrorPolicy.reducedDetail s rest ((c.name, errFn c) :: acc) by
          simp [tryVariants, hc]]
      exact h2

/-- C1: when every candidate's read fails, the Collect-all policy returns
`EnumErrors` carrying the saved position and one (name, error) pair per
attempted candidate in declaration order, while the Reduced-detail policy
returns `NoVariantMatch` carrying only the saved position. -/
theorem variant_error_policies {α : Type} (cands : List (Candidate α)) (s : Reader)
    (errFn : Candidate α → Error)
    (hfail : ∀ c ∈ cands, c.read s = .error (errFn c)) :
    resolveVariants .collectAll cands s =
        .error (.enumErrors s.pos (cands.map fun c => (c.name, errFn c))) ∧
      resolveVariants .reducedDetail cands s = .error (.noVariantMatch s.pos) := by
  obtain ⟨h1, h2⟩ := tryVariants_all_fail s errFn cands [] hfail
  refine ⟨?_, h2⟩
  rw [resolveVariants, h1]
  simp

/-- Two concrete candidates that both fail with an I/O error, named in
declaration order. -/
def twoFailingCandidates : List (Candidate Nat) :=
  [⟨"One", fun _ => .error .ioError⟩, ⟨"Two", fun _ => .error .ioError⟩]

/-- Witness for C1: two concrete always-failing candidates named in
declaration order. -/
theorem variant_error_policies_witness :
    resolveVariants .collectAll twoFailingCandidates ({ data := [1], pos := 0 } : Reader) =
        .error (.enumErrors 0 [("One", .ioError), ("Two", .ioError)]) ∧
      resolveVariants .reducedDetail twoFailingCandidates
          ({ data := [1], pos := 0 } : Reader) =
        .error (.noVariantMatch 0) :=
  variant_error_policies twoFailingCandidates { data := [1], pos := 0 }
    (fun _ => Error.ioError)
    (by
      intro c hc
      cases hc with
      | head => rfl
      | tail _ hc =>
        cases hc with
        | head => rfl
        | tail _ hc => cases hc)

/-- A model of `std::any::TypeId` over a type's `BinRead::Args` associated
type: either the unit type or some other type. -/
inductive ArgsTypeId where
  | unitId
  | otherId (n : Nat)
deriving Repr, DecidableEq

/-- An instance of the `BinRead` trait (`src/binrw/src/binread/mod.rs`):
the `Args` associated type is represented by its `TypeId` model plus the
trait's `read_options`.  `argsOfUnit` models the
`MaybeUninit::uninit().assume_init()` trick in `args_default`, which is
sound only because the unit type is a ZST: a value of `Args` is producible
exactly when `Args` is the unit type. -/
structure BinReadC (α Args : Type) where
  argsId : ArgsTypeId
  argsOfUnit : argsId = ArgsTypeId.unitId → Args
  read_options : Reader → EndianT → Args → BinResult (α × Reader)

/-- `BinRead::args_default` (`src/binrw/src/binread/mod.rs` lines 34-42):
`Some(args)` exactly when `TypeId::of::<Self::Args>() == TypeId::of::<()>()`,
otherwise `None`. -/
def BinReadC.args_default {α Args : Type} (inst : BinReadC α Args) : Option Args :=
  if h : inst.argsId = ArgsTypeId.unitId then some (inst.argsOfUnit h) else none

/-- The possible outcomes of a top-level call: a decoded value, a `BinResult`
error produced while parsing, or a panic raised before parsing began. -/
inductive ReadOutcome (α : Type) where
  | ok (val : α)
  | err (e : Error)
  | panicked (msg : String)

/-- `BinReadExt::read` (`src/binrw/src/binread/mod.rs` lines 50-57): consult
`args_default`; on `None`, panic with the fixed message before touching the
reader; on `Some`, run `read_options` with the default byte order. -/
def BinReadExt.read {α Args : Type} (inst : BinReadC α Args) (r : Reader) :
    ReadOutcome (α × Reader) :=
  match inst.args_default with
  | some args =>
    match inst.read_options r EndianT.default args with
    | .ok v => .ok v
    | .error e => .err e
  | none => .panicked "Must pass args, no args_default implemented"

/-- C2: the zero-argument read path is available (`args_default` returns
`Some`) exactly when the argument type is the unit type by type identity;
for any other argument type, calling the zero-argument `read` yields the
panic outcome — the same for every reader, before the stream is touched,
and never a parse-time `BinResult` error. -/
theorem zero_arg_read_gate {α Args : Type} (inst : BinReadC α Args) :
    ((inst.args_default).isSome ↔ inst.argsId = ArgsTypeId.unitId) ∧
      (inst.argsId ≠ ArgsTypeId.unitId → ∀ r : Reader,
        BinReadExt.read inst r =
          .panicked "Must pass args, no args_default implemented") := by
  constructor
  · unfold BinReadC.args_default
    by_cases h : inst.argsId = ArgsTypeId.unitId <;> simp [h]
  · intro h r
    unfold BinReadExt.read BinReadC.args_default
    simp [h]

/-- Witness for C2: a concrete instance whose argument type is not the unit
type panics on the zero-argument path. -/
theorem zero_arg_read_gate_witness :
    BinReadExt.read
        (⟨.otherId 0, (fun h => nomatch h), (fun r _ a => .ok (a, r))⟩ : BinReadC Nat Nat)
        { data := [], pos := 0 } =
      .panicked "Must pass args, no args_default implemented" :=
  (zero_arg_read_gate _).2 (by decide) { data := [], pos := 0 }

/-- The deferred-target slot of `AbsPlacement<BR>`
(`src/binrw/src/file_ptr.rs` lines 38-40): the ownership slot for the
target, empty until `after_parse` fills it. -/
structure AbsPlacement (α : Type) where
  value : Option α
deriving Repr, DecidableEq

/-- The panic raised by the placement `Deref` implementations, represented
structurally: it names the dereferenced type (the Rust message is
`Deref` + `d {0} before reading (make sure to use {0}::after_parse first)`
with the type name substituted). -/
inductive PanicMsg where
  | derefBeforeReading (ty : String)
deriving Repr, DecidableEq

/-- `AbsPlacement::deref_impl` (`src/binrw/src/file_ptr.rs` lines 43-48):
return the target when the slot is filled, otherwise panic with a message
naming the type.  (The Rust source spells the slot access
`self.inner.value`, a slip for `self.value` — `value` is the only field of
`AbsPlacement`.) -/
def AbsPlacement.deref_impl {α : Type} (p : AbsPlacement α) (ty : String) :
    Except PanicMsg α :=
  match p.value with
  | some x => .ok x
  | none => .error (.derefBeforeReading ty)

/-- C8: dereferencing a placement whose target slot is still empty fails
loudly with a panic naming the type and never returns a value. -/
theorem deref_empty_fails_loudly {α : Type} (p : AbsPlacement α) (ty : String)
    (h : p.value = none) :
    p.deref_impl ty = .error (.derefBeforeReading ty) ∧
      ∀ x : α, p.deref_impl ty ≠ .ok x := by
  constructor
  · simp [AbsPlacement.deref_impl, h]
  · intro x
    simp [AbsPlacement.deref_impl, h]

/-- Witness for C8: a concrete unresolved placement panics on dereference. -/
theorem deref_empty_fails_loudly_witness :
    AbsPlacement.deref_impl (⟨none⟩ : AbsPlacement Nat) "AbsPlacement" =
      .error (.derefBeforeReading "AbsPlacement") :=
  (deref_empty_fails_loudly ⟨none⟩ "AbsPlacement" rfl).1

/-- `AbsPlacement::read_options` (`src/binrw/src/file_ptr.rs` lines
103-107): phase 1 reads nothing and leaves the slot empty. -/
def AbsPlacement.read_options {α : Type} (r : Reader) :
    BinResult (AbsPlacement α × Reader) :=
  .ok ({ value := none }, r)

/-- `AbsPlacement::after_parse` (`src/binrw/src/file_ptr.rs` lines
109-123), generic over the target type's `read_options` and `after_parse`:
save the current position, seek to the absolute offset carried in the args,
run the target's full read followed by its resolve, store the target in the
slot, and seek back to the saved position. -/
def AbsPlacement.after_parse {α : Type}
    (innerRead : Reader → BinResult (α × Reader))
    (innerAfter : α → Reader → BinResult (α × Reader))
    (_p : AbsPlacement α) (r : Reader) (offset : Nat) :
    BinResult (AbsPlacement α × Reader) :=
  let before := r.pos
  match innerRead { r with pos := offset } with
  | .error e => .error e
  | .ok (inner, r₁) =>
    match innerAfter inner r₁ with
    | .error e => .error e
    | .ok (inner', r₂) => .ok ({ value := some inner' }, { r₂ with pos := before })

/-- `AbsFilePtr<Ptr, BR>` (`src/binrw/src/file_ptr.rs` lines 193-200): the
raw pointer value plus the placement slot for the deferred target. -/
structure AbsFilePtrS (α : Type) where
  ptr : Nat
  inner : AbsPlacement α
deriving Repr, DecidableEq

/-- Modelled from the spec: the derive-generated `read_options` for
`AbsFilePtr` walks the fields in declaration order — decode the raw offset
primitive, then the placement (which reads nothing). -/
def AbsFilePtrS.read_options {α : Type} (ptrWidth : Nat) (endian : EndianT)
    (r : Reader) : BinResult (AbsFilePtrS α × Reader) :=
  match readPrim ptrWidth endian r with
  | .error e => .error e
  | .ok (ptr, r₁) =>
    match AbsPlacement.read_options (α := α) r₁ with
    | .error e => .error e
    | .ok (inner, r₂) => .ok ({ ptr := ptr, inner := inner }, r₂)

/-- Modelled from the spec: the derive-generated `after_parse` for
`AbsFilePtr` visits the fields in the same order — the primitive pointer
field's `after_parse` is the trait-default no-op, then the placement's
`after_parse` runs with the decoded pointer as its absolute seek target. -/
def AbsFilePtrS.after_parse {α : Type}
    (innerRead : Reader → BinResult (α × Reader))
    (innerAfter : α → Reader → BinResult (α × Reader))
    (fp : AbsFilePtrS α) (r : Reader) : BinResult (AbsFilePtrS α × Reader) :=
  match AbsPlacement.after_parse innerRead innerAfter fp.inner r fp.ptr with
  | .error e => .error e
  | .ok (inner, r₁) => .ok ({ fp with inner := inner }, r₁)

/-- `BinReaderExt::read_type` (`src/binrw/src/binread/mod.rs` lines 89-101)
monomorphized at `AbsFilePtr<u32, u8>` under big-endian: run `read_options`,
then `after_parse` on the result.  The `u8` target's read is a one-byte
primitive read and its `after_parse` is the trait-default no-op. -/
def readBe_AbsFilePtr32_u8 (r : Reader) : BinResult (AbsFilePtrS Nat × Reader) :=
  match AbsFilePtrS.read_options (α := Nat) 4 .big r with
  | .error e => .error e
  | .ok (fp, r₁) =>
    AbsFilePtrS.after_parse (readPrim 1 .big) (fun v rr => .ok (v, rr)) fp r₁

/-- C3: reading `00 00 00 08 00 00 00 00 FF` as a structure whose single
field is a 32-bit absolute pointer to a one-byte target resolves to a
dereferenced target of 0xFF, and the final stream position is 4 — the
position immediately after the pointer's own 4-byte primitive field, not
the position of the dereferenced target. -/
theorem pointer_round_trip :
    readBe_AbsFilePtr32_u8 { data := [0, 0, 0, 8, 0, 0, 0, 0, 0xFF], pos := 0 } =
        .ok ({ ptr := 8, inner := { value := some 0xFF } },
          { data := [0, 0, 0, 8, 0, 0, 0, 0, 0xFF], pos := 4 }) ∧
      AbsPlacement.deref_impl { value := some (0xFF : Nat) } "AbsFilePtr" = .ok 0xFF :=
  ⟨rfl, rfl⟩

/-- `Endian::from_be_bom` (`src/binrw/src/endian.rs` lines 22-28). -/
def EndianT.from_be_bom (bom : Nat) : Option EndianT :=
  if bom = 0xFEFF then some .big
  else if bom = 0xFFFE then some .little
  else none

/-- `Endian::parse_bom` (`src/binrw/src/endian.rs` lines 38-48): save the
position, force big-endian in a clone of the options (the
`OptionsCollection::insert` called here mutates the clone in place), read a
16-bit mark under the forced order, and map it through `from_be_bom`,
failing with `BadMagic` at the saved position carrying the mark actually
read. -/
def EndianT.parse_bom {V : Type} (r : Reader) (options : ReadOptionsS V) :
    BinResult (EndianT × Reader) :=
  let pos := r.pos
  let options' := options.insert (.endianV .big)
  match readPrim 2 options'.endian r with
  | .error e => .error e
  | .ok (bom, r₁) =>
    match EndianT.from_be_bom bom with
    | some e => .ok (e, r₁)
    | none => .error (.badMagic pos bom)

/-- Modelled from the spec: the derive-generated reader for the
`EndianTest` composite of `src/binrw/tests/opts.rs` — parse a byte-order
mark and inject the detected order into the context for the fields that
follow (`set_opts(Endian = bom)`), then read a plain 16-bit field under the
updated context. -/
def EndianTest.read {V : Type} (r : Reader) (options : ReadOptionsS V) :
    BinResult ((EndianT × Nat) × Reader) :=
  match EndianT.parse_bom r options with
  | .error e => .error e
  | .ok (bom, r₁) =>
    let options' := options.insert (.endianV bom)
    match readPrim 2 options'.endian r₁ with
    | .error e => .error e
    | .ok (test, r₂) => .ok ((bom, test), r₂)

/-- C9: reading `FF FE 01 05` through the byte-order-mark composite detects
little-endian and decodes the following 16-bit field as 0x0501, while
`FE FE 01 05` fails with `BadMagic` carrying the position of the mark (0)
and the mark value actually read (0xFEFE). -/
theorem bom_forward_scoping :
    EndianTest.read { data := [0xFF, 0xFE, 0x01, 0x05], pos := 0 }
        (⟨.native, none, 0, []⟩ : ReadOptionsS Nat) =
        .ok ((.little, 0x0501), { data := [0xFF, 0xFE, 0x01, 0x05], pos := 4 }) ∧
      EndianTest.read { data := [0xFE, 0xFE, 0x01, 0x05], pos := 0 }
        (⟨.native, none, 0, []⟩ : ReadOptionsS Nat) =
        .error (.badMagic 0 0xFEFE) :=
  ⟨rfl, rfl⟩

end BinrwSpec
